import Mathlib

/-!
Verification of the GlyphNet model-construction code (`glyphnet/models.py`).

The Python file builds two Keras graphs (a generator and a discriminator),
derives layer names with `make_name`, and selects an adversarial loss
function by an encoding tag.  We embed:

* `make_name` over `String` with Python's `str` on a natural number
  modelled by `pyStr` (decimal formatting);
* the filter-count arithmetic of both builders, with Python float division
  `filters /= 2` modelled exactly over `ℚ` and `int(..)` truncation
  modelled by `pyInt` (truncation toward zero, `Int.tdiv`);
* the layer graphs themselves as an inductive `Graph`, with a shape
  inference `shapeOf` (Keras `same` padding semantics) and a value
  semantics `evalG` in which every layer with learned weights is an
  arbitrary function while activations and residual adds are computed;
* the loss selector `adversarial_loss` returning `Except`, with the two
  concrete losses over real vectors.
-/

/-- Python `int(q)` on a float: truncation toward zero, modelled on `ℚ`. -/
def pyInt (q : ℚ) : ℤ := q.num.tdiv (q.den : ℤ)

/-- Decimal digits of a natural number, most significant first
(the digits produced by Python `str` on a nonnegative int). -/
def natDigits (n : ℕ) : List Char :=
  if h : n < 10 then [Nat.digitChar n]
  else
    have : n / 10 < n := Nat.div_lt_self (by omega) (by omega)
    natDigits (n / 10) ++ [Nat.digitChar (n % 10)]

/-- Python `str` on a nonnegative int: decimal representation. -/
def pyStr (n : ℕ) : String := String.mk (natDigits n)

/-- Numeric value of a decimal digit character (inverse of `Nat.digitChar`
on digits). -/
def digitVal (c : Char) : ℕ := c.toNat - 48

/-- Value of a most-significant-first digit list. -/
def digitsVal (ds : List Char) : ℕ := ds.foldl (fun a c => 10 * a + digitVal c) 0

/-- `make_name` from models.py: `f'{block_name}_{layer_name}'` when `index`
is `None`, else `f'{block_name}_{layer_name}_{index}'`. -/
def make_name (block_name layer_name : String) (index : Option ℕ) : String :=
  match index with
  | none => block_name ++ "_" ++ layer_name
  | some i => block_name ++ "_" ++ layer_name ++ "_" ++ pyStr i

/-- `tf.nn.sigmoid` on a real number. -/
noncomputable def sigmoid (x : ℝ) : ℝ := 1 / (1 + Real.exp (-x))

/-- `swish(x) = tf.nn.sigmoid(x) * x` from models.py. -/
noncomputable def swish (x : ℝ) : ℝ := sigmoid x * x

/-- `tf.nn.softmax` along the last axis of one row. -/
noncomputable def softmax {n : ℕ} (y : Fin n → ℝ) : Fin n → ℝ :=
  fun i => Real.exp (y i) / ∑ j, Real.exp (y j)

/-- `tf.keras.losses.binary_crossentropy` on two vectors: mean over the
last axis of the elementwise binary cross entropy. -/
noncomputable def binary_crossentropy (m : ℕ) (t p : Fin m → ℝ) : ℝ :=
  (∑ b, -(t b * Real.log (p b) + (1 - t b) * Real.log (1 - p b))) / m

/-- Type of the loss functions in `adversarial_loss`: inputs are batches
(`B` rows) of vectors with `n + 1` channels, output a scalar. -/
def LossFn := (B n : ℕ) → (Fin B → Fin (n + 1) → ℝ) → (Fin B → Fin (n + 1) → ℝ) → ℝ

/-- `one_hot_loss` from models.py: softmax both full vectors (per row),
then binary cross entropy of the last channels. -/
noncomputable def one_hot_loss : LossFn := fun B n y_true y_pred =>
  binary_crossentropy B
    (fun b => softmax (y_true b) (Fin.last n))
    (fun b => softmax (y_pred b) (Fin.last n))

/-- `binary_loss` from models.py: binary cross entropy of
`sigmoid(y_true[:, -1])` against `1 - sigmoid(y_pred[:, -1])`. -/
noncomputable def binary_loss : LossFn := fun B n y_true y_pred =>
  binary_crossentropy B
    (fun b => sigmoid (y_true b (Fin.last n)))
    (fun b => 1 - sigmoid (y_pred b (Fin.last n)))

/-- The single-quote character of the Python error f-string. -/
def squote : String := String.singleton (Char.ofNat 39)

/-- `adversarial_loss` from models.py: returns the loss for `"one-hot"` or
`"binary"`, and raises `RuntimeError(f"Encoding '{encoding}' not understood")`
otherwise, modelled as `Except.error` carrying the message. -/
noncomputable def adversarial_loss (encoding : String) : Except String LossFn :=
  if encoding = "one-hot" then Except.ok one_hot_loss
  else if encoding = "binary" then Except.ok binary_loss
  else Except.error (("Encoding " ++ squote) ++ (encoding ++ (squote ++ " not understood")))

/-- The generator's loop over `filters : ℚ` (a Python float after
`filters /= 2`): each iteration passes `int(filters)` to its blocks and
then halves `filters`.  Returns the per-stage filter counts in order. -/
def genFiltersAux : ℚ → ℕ → List ℤ
  | _, 0 => []
  | q, n + 1 => pyInt q :: genFiltersAux (q / 2) n

/-- Per-stage filter counts of the generator's `R` upsample stages:
`filters = last_channels * 2 ** R`, then `filters /= 2` before the loop. -/
def generatorFilters (last_channels R : ℕ) : List ℤ :=
  genFiltersAux (((last_channels * 2 ^ R : ℕ) : ℚ) / 2) R

/-- The discriminator's loop over `filters : ℕ` (stays a Python int):
each iteration uses `filters` and then doubles it. -/
def discFiltersAux : ℕ → ℕ → List ℕ
  | _, 0 => []
  | f, n + 1 => f :: discFiltersAux (f * 2) n

/-- Per-stage filter counts of the discriminator's `R` downsample stages:
`filters = first_channels * 2` before the loop. -/
def discriminatorFilters (first_channels R : ℕ) : List ℕ :=
  discFiltersAux (first_channels * 2) R

/-- Activation kinds appearing in the models: `swish` or the string
`'sigmoid'` passed to `tf.keras.layers.Activation`. -/
inductive Act where
  | swishAct : Act
  | sigmoidAct : Act
deriving DecidableEq

/-- Symbolic Keras layer graph.  Each constructor is one layer application
of models.py; layers are carried with their configured name. -/
inductive Graph where
  | input : List ℕ → Graph
  | reshape : List ℕ → Graph → Graph
  | conv2d : (filters kernel stride : ℕ) → String → Graph → Graph
  | conv2dTranspose : (filters kernel stride : ℕ) → String → Graph → Graph
  | batchNorm : String → Graph → Graph
  | activation : Act → String → Graph → Graph
  | add : String → Graph → Graph → Graph
  | globalAveragePooling2D : String → Graph → Graph
  | dense : (units : ℕ) → String → Graph → Graph
deriving DecidableEq

/-- `conv_block` from models.py: `Conv2D(filters, kernel, stride, 'same')`,
`BatchNormalization`, `Activation`, with `kernel = 1 if one_by_one else 3`,
`stride = 2 if pooling else 1`, activation `swish` unless `sigmoid`. -/
def conv_block (x : Graph) (filters : ℕ) (block_name : String) (index : Option ℕ)
    (pooling one_by_one sigmoid_flag : Bool) : Graph :=
  let kernel : ℕ := if one_by_one then 1 else 3
  let stride : ℕ := if pooling then 2 else 1
  let activation : Act := if sigmoid_flag then Act.sigmoidAct else Act.swishAct
  let c := Graph.conv2d filters kernel stride (make_name block_name "conv" index) x
  let b := Graph.batchNorm (make_name block_name "bn" index) c
  Graph.activation activation (make_name block_name "swish" index) b

/-- `deconv_block` from models.py: `Conv2DTranspose(filters, 3, 2, 'same')`,
`BatchNormalization`, `Activation(swish)`. -/
def deconv_block (x : Graph) (filters : ℕ) (block_name : String) (index : ℕ) : Graph :=
  let d := Graph.conv2dTranspose filters 3 2 (make_name block_name "deconv" (some index)) x
  let b := Graph.batchNorm (make_name block_name "bn" (some index)) d
  Graph.activation Act.swishAct (make_name block_name "swish" (some index)) b

/-- The generator's `for r in range(R)` loop: carries the graph `x`, the
float `filters`, and the already-completed iteration count `r`; each
iteration builds `pre = deconv_block(x, int(filters), 'deconv_block', r+1)`,
a one-by-one `conv_block` on `pre`, adds them under `f'add_{r+1}'`, then
halves `filters`. -/
def generatorLoop : Graph → ℚ → ℕ → ℕ → Graph
  | x, _, _, 0 => x
  | x, filters, r, n + 1 =>
    let pre := deconv_block x (pyInt filters).toNat "deconv_block" (r + 1)
    let y := conv_block pre (pyInt filters).toNat "conv_1by1" (some (r + 1)) false true false
    let x1 := Graph.add ("add_" ++ pyStr (r + 1)) pre y
    generatorLoop x1 (filters / 2) (r + 1) n

/-- `generator` from models.py as a symbolic graph. -/
def generator (vector_dim R last_channels c : ℕ) : Graph :=
  let input0 := Graph.input [vector_dim]
  let x0 := Graph.reshape [1, 1, vector_dim] input0
  let filters := last_channels * 2 ^ R
  let x1 := conv_block x0 filters "stem" none false true false
  let xf := generatorLoop x1 ((filters : ℚ) / 2) 0 R
  conv_block xf c "prediction_conv" none false false true

/-- The discriminator's `for r in range(R)` loop: each iteration builds
`pre = conv_block(x, filters, 'conv_block', r+1, pooling=True)`,
a one-by-one `conv_block` applied to `pre`, adds them under `f'add_{r+1}'`,
then doubles `filters`. -/
def discriminatorLoop : Graph → ℕ → ℕ → ℕ → Graph
  | x, _, _, 0 => x
  | x, filters, r, n + 1 =>
    let pre := conv_block x filters "conv_block" (some (r + 1)) true false false
    let y := conv_block pre filters "conv_1by1" (some (r + 1)) false true false
    let x1 := Graph.add ("add_" ++ pyStr (r + 1)) pre y
    discriminatorLoop x1 (filters * 2) (r + 1) n

/-- `discriminator` from models.py as a symbolic graph. -/
def discriminator (vector_dim R first_channels c : ℕ) : Graph :=
  let input_dim := 2 ^ R
  let input0 := Graph.input [input_dim, input_dim, c]
  let filters := first_channels * 2
  let x1 := conv_block input0 filters "stem" none false false false
  let xf := discriminatorLoop x1 filters 0 R
  Graph.dense (vector_dim + 1) "prediction" (Graph.globalAveragePooling2D "prediction_GAP" xf)

/-- Claimed variant of the discriminator loop, following the claim's words:
the one-by-one residual projection is applied to the pre-downsample input
of the iteration (the tensor entering the stride-2 block), and its result
is added to the downsampled main branch. -/
def discriminatorLoopPreInput : Graph → ℕ → ℕ → ℕ → Graph
  | x, _, _, 0 => x
  | x, filters, r, n + 1 =>
    let pre := conv_block x filters "conv_block" (some (r + 1)) true false false
    let y := conv_block x filters "conv_1by1" (some (r + 1)) false true false
    let x1 := Graph.add ("add_" ++ pyStr (r + 1)) pre y
    discriminatorLoopPreInput x1 (filters * 2) (r + 1) n

/-- Discriminator built with the claimed loop `discriminatorLoopPreInput`. -/
def discriminatorPreInput (vector_dim R first_channels c : ℕ) : Graph :=
  let input_dim := 2 ^ R
  let input0 := Graph.input [input_dim, input_dim, c]
  let filters := first_channels * 2
  let x1 := conv_block input0 filters "stem" none false false false
  let xf := discriminatorLoopPreInput x1 filters 0 R
  Graph.dense (vector_dim + 1) "prediction" (Graph.globalAveragePooling2D "prediction_GAP" xf)

/-- Amended variant of the discriminator loop, following the amended claim:
the one-by-one residual projection is applied to the downsampled output of
the stride-2 block, and its result is added to that same downsampled
tensor. -/
def discriminatorLoopPostPool : Graph → ℕ → ℕ → ℕ → Graph
  | x, _, _, 0 => x
  | x, filters, r, n + 1 =>
    let pooled := conv_block x filters "conv_block" (some (r + 1)) true false false
    let proj := conv_block pooled filters "conv_1by1" (some (r + 1)) false true false
    let x1 := Graph.add ("add_" ++ pyStr (r + 1)) pooled proj
    discriminatorLoopPostPool x1 (filters * 2) (r + 1) n

/-- Discriminator built with the amended loop `discriminatorLoopPostPool`. -/
def discriminatorPostPool (vector_dim R first_channels c : ℕ) : Graph :=
  let input_dim := 2 ^ R
  let input0 := Graph.input [input_dim, input_dim, c]
  let filters := first_channels * 2
  let x1 := conv_block input0 filters "stem" none false false false
  let xf := discriminatorLoopPostPool x1 filters 0 R
  Graph.dense (vector_dim + 1) "prediction" (Graph.globalAveragePooling2D "prediction_GAP" xf)

/-- Spatial output size of a Keras `same`-padded convolution along one
axis: `ceil(h / stride)`. -/
def outDim (h stride : ℕ) : ℕ := (h + stride - 1) / stride

/-- Keras static shape inference over `Graph` (shapes without the batch
axis); `none` is a construction-time shape error. -/
def shapeOf : Graph → Option (List ℕ)
  | Graph.input sh => some sh
  | Graph.reshape sh x =>
    match shapeOf x with
    | some sh0 => if sh0.prod = sh.prod then some sh else none
    | none => none
  | Graph.conv2d f _ s _ x =>
    match shapeOf x with
    | some [h, w, _] => some [outDim h s, outDim w s, f]
    | _ => none
  | Graph.conv2dTranspose f _ s _ x =>
    match shapeOf x with
    | some [h, w, _] => some [h * s, w * s, f]
    | _ => none
  | Graph.batchNorm _ x => shapeOf x
  | Graph.activation _ _ x => shapeOf x
  | Graph.add _ a b =>
    match shapeOf a, shapeOf b with
    | some sa, some sb => if sa = sb then some sa else none
    | _, _ => none
  | Graph.globalAveragePooling2D _ x =>
    match shapeOf x with
    | some [_, _, ch] => some [ch]
    | _ => none
  | Graph.dense u _ x =>
    match shapeOf x with
    | some [_] => some [u]
    | _ => none

/-- Interpretation of the activation kinds. -/
noncomputable def actFun : Act → ℝ → ℝ
  | Act.swishAct => swish
  | Act.sigmoidAct => sigmoid

/-- Value semantics over `Graph`: a tensor value is a function of its
indices.  Layers with learned parameters (and the inputs) take arbitrary
values from the environment `env`; activation layers and residual adds are
computed.  Any theorem quantifying over `env` therefore holds for every
choice of weights. -/
noncomputable def evalG (env : Graph → ℕ → ℕ → ℕ → ℝ) : Graph → ℕ → ℕ → ℕ → ℝ
  | Graph.activation a _ x, i, j, k => actFun a (evalG env x i j k)
  | Graph.add _ x y, i, j, k => evalG env x i j k + evalG env y i j k
  | g, i, j, k => env g i j k

/-- The claim's formula for the `"binary"` loss: binary cross entropy
between sigmoid of the last channel of `y_true` and one minus sigmoid of
the last channel of `y_pred`.  Worded from the spec, to be compared with
`binary_loss` from the source. -/
noncomputable def binaryLossSpec : LossFn := fun B n y_true y_pred =>
  binary_crossentropy B
    (fun b => sigmoid (y_true b (Fin.last n)))
    (fun b => 1 - sigmoid (y_pred b (Fin.last n)))

/-- The claim's formula for the `"one-hot"` loss: binary cross entropy
between the last channels of `softmax y_true` and `softmax y_pred`, the
softmax applied to the full vectors before the last channel is taken.
Worded from the spec, to be compared with `one_hot_loss` from the source. -/
noncomputable def oneHotLossSpec : LossFn := fun B n y_true y_pred =>
  binary_crossentropy B
    (fun b => softmax (y_true b) (Fin.last n))
    (fun b => softmax (y_pred b) (Fin.last n))

/-- All convolution layers of a graph, outermost first, as
`(layer name, filter count)` pairs (`Conv2D` and `Conv2DTranspose`). -/
def convLayers : Graph → List (String × ℕ)
  | Graph.input _ => []
  | Graph.reshape _ x => convLayers x
  | Graph.conv2d f _ _ nm x => (nm, f) :: convLayers x
  | Graph.conv2dTranspose f _ _ nm x => (nm, f) :: convLayers x
  | Graph.batchNorm _ x => convLayers x
  | Graph.activation _ _ x => convLayers x
  | Graph.add _ a b => convLayers a ++ convLayers b
  | Graph.globalAveragePooling2D _ x => convLayers x
  | Graph.dense _ _ x => convLayers x

/-- Name-erased layer structure, used to compare graph topologies without
evaluating layer-name strings. -/
inductive Skel where
  | input : List ℕ → Skel
  | reshape : List ℕ → Skel → Skel
  | conv2d : (filters kernel stride : ℕ) → Skel → Skel
  | conv2dTranspose : (filters kernel stride : ℕ) → Skel → Skel
  | batchNorm : Skel → Skel
  | activation : Act → Skel → Skel
  | add : Skel → Skel → Skel
  | globalAveragePooling2D : Skel → Skel
  | dense : (units : ℕ) → Skel → Skel
deriving DecidableEq

/-- Erase the layer names of a graph, keeping its topology. -/
def skel : Graph → Skel
  | Graph.input sh => Skel.input sh
  | Graph.reshape sh x => Skel.reshape sh (skel x)
  | Graph.conv2d f k s _ x => Skel.conv2d f k s (skel x)
  | Graph.conv2dTranspose f k s _ x => Skel.conv2dTranspose f k s (skel x)
  | Graph.batchNorm _ x => Skel.batchNorm (skel x)
  | Graph.activation a _ x => Skel.activation a (skel x)
  | Graph.add _ a b => Skel.add (skel a) (skel b)
  | Graph.globalAveragePooling2D _ x => Skel.globalAveragePooling2D (skel x)
  | Graph.dense u _ x => Skel.dense u (skel x)

theorem digitsVal_append (ds : List Char) (c : Char) :
    digitsVal (ds ++ [c]) = 10 * digitsVal ds + digitVal c := by
  simp [digitsVal, List.foldl_append]

theorem digitVal_digitChar {d : ℕ} (h : d < 10) : digitVal (Nat.digitChar d) = d := by
  interval_cases d <;> decide

theorem digitsVal_natDigits (n : ℕ) : digitsVal (natDigits n) = n := by
  induction n using Nat.strong_induction_on with
  | _ n ih =>
    rw [natDigits]
    split
    · next h =>
      simpa [digitsVal] using digitVal_digitChar h
    · next h =>
      rw [digitsVal_append, ih (n / 10) (Nat.div_lt_self (by omega) (by omega)),
        digitVal_digitChar (Nat.mod_lt _ (by omega))]
      omega

theorem pyStr_inj {m n : ℕ} (h : pyStr m = pyStr n) : m = n := by
  have hd : natDigits m = natDigits n := congrArg String.data h
  have := congrArg digitsVal hd
  rwa [digitsVal_natDigits, digitsVal_natDigits] at this

theorem make_name_data_none (b l : String) :
    (make_name b l none).data = b.data ++ '_' :: l.data := by
  show (b ++ "_" ++ l).data = _
  rw [String.data_append, String.data_append]
  simp

theorem make_name_data_some (b l : String) (i : ℕ) :
    (make_name b l (some i)).data = b.data ++ '_' :: (l.data ++ '_' :: (pyStr i).data) := by
  show (b ++ "_" ++ l ++ "_" ++ pyStr i).data = _
  rw [String.data_append, String.data_append, String.data_append, String.data_append]
  simp

theorem append_underscore_inj : ∀ {xs xs' ys ys' : List Char},
    '_' ∉ xs → '_' ∉ xs' → xs ++ '_' :: ys = xs' ++ '_' :: ys' → xs = xs' ∧ ys = ys' := by
  intro xs
  induction xs with
  | nil =>
    intro xs' ys ys' _ hx' h
    cases xs' with
    | nil => simpa using h
    | cons c cs =>
      exfalso
      rw [List.nil_append, List.cons_append] at h
      have hc : '_' = c := (List.cons.injEq _ _ _ _ ▸ h).1
      exact hx' (by rw [← hc]; exact List.mem_cons_self _ _)
  | cons c cs ih =>
    intro xs' ys ys' hx hx' h
    cases xs' with
    | nil =>
      exfalso
      rw [List.nil_append, List.cons_append] at h
      have hc : c = '_' := (List.cons.injEq _ _ _ _ ▸ h).1
      exact hx (by rw [← hc]; exact List.mem_cons_self _ _)
    | cons c' cs' =>
      rw [List.cons_append, List.cons_append] at h
      have hcc : c = c' := (List.cons.injEq _ _ _ _ ▸ h).1
      have ht : cs ++ '_' :: ys = cs' ++ '_' :: ys' := (List.cons.injEq _ _ _ _ ▸ h).2
      have hcs : '_' ∉ cs := fun m => hx (List.mem_cons_of_mem _ m)
      have hcs' : '_' ∉ cs' := fun m => hx' (List.mem_cons_of_mem _ m)
      obtain ⟨h1, h2⟩ := ih hcs hcs' ht
      exact ⟨by rw [hcc, h1], h2⟩

/-- C3: `adversarial_loss` returns a loss function for the tags
`"one-hot"` and `"binary"`, and for every other string it fails with an
error whose message contains the invalid tag itself. -/
theorem adversarial_loss_spec (s : String) (h1 : s ≠ "one-hot") (h2 : s ≠ "binary") :
    (∃ f, adversarial_loss "one-hot" = Except.ok f) ∧
    (∃ f, adversarial_loss "binary" = Except.ok f) ∧
    ∃ pre post, adversarial_loss s = Except.error (pre ++ (s ++ post)) := by
  refine ⟨⟨one_hot_loss, by simp [adversarial_loss]⟩,
    ⟨binary_loss, by simp [adversarial_loss]⟩,
    ⟨"Encoding " ++ squote, squote ++ " not understood", ?_⟩⟩
  simp [adversarial_loss, h1, h2]

theorem adversarial_loss_spec_witness :
    ("xyz" ≠ "one-hot" ∧ "xyz" ≠ "binary") ∧
    ((∃ f, adversarial_loss "one-hot" = Except.ok f) ∧
     (∃ f, adversarial_loss "binary" = Except.ok f) ∧
     ∃ pre post, adversarial_loss "xyz" = Except.error (pre ++ ("xyz" ++ post))) :=
  ⟨⟨by decide, by decide⟩, adversarial_loss_spec "xyz" (by decide) (by decide)⟩

/-- C4 (counterexample): `make_name` is not collision-free on arbitrary
triples: the distinct triples `("a_b", "c", none)` and `("a", "b_c", none)`
produce the same layer name `"a_b_c"`. -/
theorem make_name_not_injective :
    make_name "a_b" "c" none = make_name "a" "b_c" none ∧
    ("a_b", "c", (none : Option ℕ)) ≠ ("a", "b_c", (none : Option ℕ)) := by
  exact ⟨by decide, by decide⟩

/-- C4 (amended): `make_name` is collision-free on every two distinct
triples whose block and layer names contain no underscore character:
distinct `(block_name, layer_name, index)` triples give distinct names. -/
theorem make_name_injective_no_underscore
    (b l b' l' : String) (i i' : Option ℕ)
    (hb : '_' ∉ b.data) (hl : '_' ∉ l.data) (hb' : '_' ∉ b'.data) (hl' : '_' ∉ l'.data)
    (hne : (b, l, i) ≠ (b', l', i')) :
    make_name b l i ≠ make_name b' l' i' := by
  intro he
  have hd := congrArg String.data he
  apply hne
  cases i with
  | none =>
    cases i' with
    | none =>
      rw [make_name_data_none, make_name_data_none] at hd
      obtain ⟨h1, h2⟩ := append_underscore_inj hb hb' hd
      rw [String.ext h1, String.ext h2]
    | some j =>
      rw [make_name_data_none, make_name_data_some] at hd
      obtain ⟨-, h2⟩ := append_underscore_inj hb hb' hd
      exact absurd (by rw [h2]; simp : '_' ∈ l.data) hl
  | some j =>
    cases i' with
    | none =>
      rw [make_name_data_some, make_name_data_none] at hd
      obtain ⟨-, h2⟩ := append_underscore_inj hb hb' hd
      exact absurd (by rw [← h2]; simp : '_' ∈ l'.data) hl'
    | some j' =>
      rw [make_name_data_some, make_name_data_some] at hd
      obtain ⟨h1, h2⟩ := append_underscore_inj hb hb' hd
      obtain ⟨h3, h4⟩ := append_underscore_inj hl hl' h2
      rw [String.ext h1, String.ext h3, pyStr_inj (String.ext h4)]

theorem make_name_injective_no_underscore_witness :
    ('_' ∉ "stem".data ∧ '_' ∉ "conv".data ∧ '_' ∉ "stem".data ∧ '_' ∉ "bn".data ∧
      ("stem", "conv", (none : Option ℕ)) ≠ ("stem", "bn", (none : Option ℕ))) ∧
    make_name "stem" "conv" none ≠ make_name "stem" "bn" none :=
  ⟨⟨by decide, by decide, by decide, by decide, by decide⟩,
    make_name_injective_no_underscore "stem" "conv" "stem" "bn" none none
      (by decide) (by decide) (by decide) (by decide) (by decide)⟩

/-- C9: for every block and layer name, two different index values (also
when one is absent and the other a stage number) give distinct layer
identifiers. -/
theorem make_name_index_distinct (b l : String) (i j : Option ℕ) (hij : i ≠ j) :
    make_name b l i ≠ make_name b l j := by
  intro he
  have hd := congrArg String.data he
  apply hij
  cases i with
  | none =>
    cases j with
    | none => rfl
    | some w =>
      exfalso
      rw [make_name_data_none, make_name_data_some] at hd
      have h2 := List.append_cancel_left hd
      simp at h2
  | some v =>
    cases j with
    | none =>
      exfalso
      rw [make_name_data_some, make_name_data_none] at hd
      have h2 := List.append_cancel_left hd
      simp at h2
    | some w =>
      rw [make_name_data_some, make_name_data_some] at hd
      have h2 := List.append_cancel_left hd
      have h3 : l.data ++ '_' :: (pyStr v).data = l.data ++ '_' :: (pyStr w).data := by
        simpa using h2
      have h4 := List.append_cancel_left h3
      have h5 : (pyStr v).data = (pyStr w).data := by simpa using h4
      rw [pyStr_inj (String.ext h5)]

theorem make_name_index_distinct_witness :
    (some 1 : Option ℕ) ≠ none ∧
    make_name "conv_block" "conv" (some 1) ≠ make_name "conv_block" "conv" none :=
  ⟨by decide, make_name_index_distinct "conv_block" "conv" (some 1) none (by decide)⟩

/-- C7: the loss returned for the tag `"binary"` is `binary_loss`, and on
every pair of inputs it is the binary cross entropy between sigmoid of the
last channel of `y_true` and one minus sigmoid of the last channel of
`y_pred`. -/
theorem binary_loss_spec :
    adversarial_loss "binary" = Except.ok binary_loss ∧
    ∀ B n y_true y_pred, binary_loss B n y_true y_pred = binaryLossSpec B n y_true y_pred := by
  exact ⟨by simp [adversarial_loss], fun _ _ _ _ => rfl⟩

/-- C8: the loss returned for the tag `"one-hot"` is `one_hot_loss`, and on
every pair of inputs it is the binary cross entropy between the last
channels of the softmaxed vectors, softmax taken on the full vectors
first. -/
theorem one_hot_loss_spec :
    adversarial_loss "one-hot" = Except.ok one_hot_loss ∧
    ∀ B n y_true y_pred, one_hot_loss B n y_true y_pred = oneHotLossSpec B n y_true y_pred := by
  exact ⟨by simp [adversarial_loss], fun _ _ _ _ => rfl⟩

theorem pyInt_natCast (k : ℕ) : pyInt (k : ℚ) = (k : ℤ) := by
  simp [pyInt, Rat.num_natCast, Rat.den_natCast]

theorem genFiltersAux_closed : ∀ (n m L : ℕ), n ≤ m →
    genFiltersAux (((L * 2 ^ m : ℕ) : ℚ) / 2) n
      = (List.range n).map (fun r => ((L * 2 ^ (m - 1 - r) : ℕ) : ℤ)) := by
  intro n
  induction n with
  | zero => intro m L _; simp [genFiltersAux]
  | succ n ih =>
    intro m L h
    obtain ⟨m1, rfl⟩ : ∃ m1, m = m1 + 1 := ⟨m - 1, by omega⟩
    have key : (((L * 2 ^ (m1 + 1) : ℕ) : ℚ)) / 2 = ((L * 2 ^ m1 : ℕ) : ℚ) := by
      push_cast
      rw [pow_succ]
      field_simp
      ring
    rw [show genFiltersAux (((L * 2 ^ (m1 + 1) : ℕ) : ℚ) / 2) (n + 1)
        = pyInt (((L * 2 ^ (m1 + 1) : ℕ) : ℚ) / 2)
          :: genFiltersAux ((((L * 2 ^ (m1 + 1) : ℕ) : ℚ) / 2) / 2) n from rfl]
    rw [key, pyInt_natCast, ih m1 L (by omega), List.range_succ_eq_map, List.map_cons,
      List.map_map]
    congr 1
    apply List.map_congr_left
    intro r _
    show ((L * 2 ^ (m1 - 1 - r) : ℕ) : ℤ) = ((L * 2 ^ (m1 + 1 - 1 - (r + 1)) : ℕ) : ℤ)
    have e : m1 + 1 - 1 - (r + 1) = m1 - 1 - r := by omega
    rw [e]

theorem discFiltersAux_closed : ∀ (n f : ℕ),
    discFiltersAux f n = (List.range n).map (fun r => f * 2 ^ r) := by
  intro n
  induction n with
  | zero => intro f; simp [discFiltersAux]
  | succ n ih =>
    intro f
    rw [show discFiltersAux f (n + 1) = f :: discFiltersAux (f * 2) n from rfl, ih,
      List.range_succ_eq_map, List.map_cons, List.map_map]
    congr 1
    · simp
    · apply List.map_congr_left
      intro r _
      show f * 2 * 2 ^ r = f * 2 ^ (r + 1)
      ring

theorem map_range_reverse {α : Type} (f : ℕ → α) (n : ℕ) :
    ((List.range n).map f).reverse = (List.range n).map (fun i => f (n - 1 - i)) := by
  induction n with
  | zero => simp
  | succ n ih =>
    conv_lhs => rw [List.range_succ]
    conv_rhs => rw [List.range_succ_eq_map]
    rw [List.map_append, List.reverse_append, ih]
    simp only [List.map_cons, List.map_nil, List.reverse_cons, List.reverse_nil,
      List.nil_append, List.cons_append, List.map_map]
    congr 1
    apply List.map_congr_left
    intro r _
    show f (n - 1 - r) = f (n + 1 - 1 - (r + 1))
    congr 1
    omega

theorem convLayers_conv_block (x : Graph) (f : ℕ) (b : String) (i : Option ℕ)
    (p o s : Bool) :
    convLayers (conv_block x f b i p o s) = (make_name b "conv" i, f) :: convLayers x := rfl

theorem mem_convLayers_generatorLoop (p : String × ℕ) :
    ∀ (n : ℕ) (x : Graph) (q : ℚ) (r : ℕ),
      p ∈ convLayers x → p ∈ convLayers (generatorLoop x q r n) := by
  intro n
  induction n with
  | zero => intro x q r h; exact h
  | succ n ih =>
    intro x q r h
    exact ih _ _ _ (List.mem_append_left _ (List.mem_cons_of_mem _ h))

/-- C10: in the generator, the stem block receives `last_channels * 2 ^ R`
filters, and although the running filter count is a float divided by 2
each stage, upsample stage `r + 1` receives exactly the integer
`last_channels * 2 ^ (R - 1 - r)`: the `int()` truncation loses nothing. -/
theorem generatorFilters_exact (V R L c : ℕ) (_h : 1 ≤ L) :
    ("stem_conv", L * 2 ^ R) ∈ convLayers (generator V R L c) ∧
    generatorFilters L R = (List.range R).map (fun r => ((L * 2 ^ (R - 1 - r) : ℕ) : ℤ)) := by
  constructor
  · have hname : make_name "stem" "conv" none = "stem_conv" := by decide
    simp only [generator]
    rw [convLayers_conv_block]
    apply List.mem_cons_of_mem
    apply mem_convLayers_generatorLoop
    rw [convLayers_conv_block, hname]
    exact List.mem_cons_self _ _
  · exact genFiltersAux_closed R R L le_rfl

theorem generatorFilters_exact_witness :
    1 ≤ 8 ∧
    (("stem_conv", 8 * 2 ^ 4) ∈ convLayers (generator 32 4 8 1) ∧
     generatorFilters 8 4 = (List.range 4).map (fun r => ((8 * 2 ^ (4 - 1 - r) : ℕ) : ℤ))) :=
  ⟨by decide, generatorFilters_exact 32 4 8 1 (by decide)⟩

/-- C1 (counterexample): with `last_channels == first_channels` (8), the
same `R` (4) and the same `C`, the generator's reversed per-stage filter
counts `[8, 16, 32, 64]` do NOT equal the discriminator's per-stage filter
counts `[16, 32, 64, 128]`: each discriminator stage is twice its mirror. -/
theorem filters_not_mirror :
    ¬ ((generatorFilters 8 4).reverse
        = (discriminatorFilters 8 4).map Int.ofNat) := by
  rw [generatorFilters, genFiltersAux_closed 4 4 8 le_rfl, discriminatorFilters,
    discFiltersAux_closed]
  decide

/-- C1 (amended): the filter-count sequences are exact mirrors precisely
for the dual configurations with `last_channels = 2 * first_channels` and
the same `R`: the generator's stage sequence read in reverse equals the
discriminator's stage sequence. -/
theorem filters_mirror_dual :
    ∀ (F R : ℕ), (generatorFilters (2 * F) R).reverse
      = (discriminatorFilters F R).map Int.ofNat := by
  intro F R
  rw [generatorFilters, genFiltersAux_closed R R (2 * F) le_rfl, map_range_reverse,
    discriminatorFilters, discFiltersAux_closed, List.map_map]
  apply List.map_congr_left
  intro r hr
  have hrR : r < R := List.mem_range.mp hr
  show ((2 * F * 2 ^ (R - 1 - (R - 1 - r)) : ℕ) : ℤ) = ((F * 2 * 2 ^ r : ℕ) : ℤ)
  have e : R - 1 - (R - 1 - r) = r := by omega
  rw [e]
  congr 1
  ring

theorem discriminatorLoop_eq_postPool : ∀ (n : ℕ) (x : Graph) (f r : ℕ),
    discriminatorLoop x f r n = discriminatorLoopPostPool x f r n := by
  intro n
  induction n with
  | zero => intro x f r; rfl
  | succ n ih => intro x f r; exact ih _ _ _

/-- C2 (counterexample): with `vector_dim = R = first_channels = c = 1`,
the discriminator graph differs from the graph the claim describes, in
which the one-by-one projection is applied to the pre-downsample input of
the iteration. -/
theorem discriminator_ne_preInput :
    discriminator 1 1 1 1 ≠ discriminatorPreInput 1 1 1 1 := fun h =>
  absurd (congrArg skel h) (by decide)

/-- C2 (amended): at each of the `R` downsampling iterations, the
one-by-one residual projection is applied to the downsampled output of the
stride-2 block, and its result is added elementwise to that same
downsampled tensor. -/
theorem discriminator_eq_postPool (V R F c : ℕ) :
    discriminator V R F c = discriminatorPostPool V R F c := by
  simp only [discriminator, discriminatorPostPool]
  rw [discriminatorLoop_eq_postPool]

theorem outDim_one (h : ℕ) : outDim h 1 = h := by
  simp [outDim]

theorem outDim_two_pow {k : ℕ} (hk : 1 ≤ k) : outDim (2 ^ k) 2 = 2 ^ (k - 1) := by
  have e : 2 ^ k = 2 * 2 ^ (k - 1) := by
    conv_lhs => rw [show k = (k - 1) + 1 by omega]
    rw [pow_succ]
    ring
  rw [outDim, e]
  omega

theorem shapeOf_conv_block (x : Graph) (f : ℕ) (b : String) (i : Option ℕ)
    (p o s : Bool) (h w ch : ℕ) (hx : shapeOf x = some [h, w, ch]) :
    shapeOf (conv_block x f b i p o s)
      = some [outDim h (if p then 2 else 1), outDim w (if p then 2 else 1), f] := by
  simp only [conv_block, shapeOf, hx]

theorem shapeOf_deconv_block (x : Graph) (f : ℕ) (b : String) (i : ℕ)
    (h w ch : ℕ) (hx : shapeOf x = some [h, w, ch]) :
    shapeOf (deconv_block x f b i) = some [h * 2, w * 2, f] := by
  simp only [deconv_block, shapeOf, hx]

theorem shapeOf_add (nm : String) (a b : Graph) (sa : List ℕ)
    (ha : shapeOf a = some sa) (hb : shapeOf b = some sa) :
    shapeOf (Graph.add nm a b) = some sa := by
  simp [shapeOf, ha, hb]

theorem shapeOf_generatorLoop : ∀ (n : ℕ) (x : Graph) (q : ℚ) (r h w ch : ℕ),
    shapeOf x = some [h, w, ch] →
    ∃ ch2, shapeOf (generatorLoop x q r n) = some [h * 2 ^ n, w * 2 ^ n, ch2] := by
  intro n
  induction n with
  | zero => intro x q r h w ch hx; exact ⟨ch, by simpa using hx⟩
  | succ n ih =>
    intro x q r h w ch hx
    have hpre := shapeOf_deconv_block x (pyInt q).toNat "deconv_block" (r + 1) h w ch hx
    have hy := shapeOf_conv_block (deconv_block x (pyInt q).toNat "deconv_block" (r + 1))
      (pyInt q).toNat "conv_1by1" (some (r + 1)) false true false (h * 2) (w * 2)
      (pyInt q).toNat hpre
    rw [if_neg (by simp), outDim_one, outDim_one] at hy
    have hadd : shapeOf (Graph.add ("add_" ++ pyStr (r + 1))
        (deconv_block x (pyInt q).toNat "deconv_block" (r + 1))
        (conv_block (deconv_block x (pyInt q).toNat "deconv_block" (r + 1))
          (pyInt q).toNat "conv_1by1" (some (r + 1)) false true false))
        = some [h * 2, w * 2, (pyInt q).toNat] :=
      shapeOf_add _ _ _ _ hpre hy
    obtain ⟨ch2, h2⟩ := ih _ (q / 2) (r + 1) (h * 2) (w * 2) (pyInt q).toNat hadd
    refine ⟨ch2, ?_⟩
    have e1 : h * 2 * 2 ^ n = h * 2 ^ (n + 1) := by ring
    have e2 : w * 2 * 2 ^ n = w * 2 ^ (n + 1) := by ring
    rw [e1, e2] at h2
    exact h2

theorem sigmoid_nonneg (x : ℝ) : 0 ≤ sigmoid x := by
  rw [sigmoid]
  positivity

theorem sigmoid_le_one (x : ℝ) : sigmoid x ≤ 1 := by
  have hpos := Real.exp_pos (-x)
  rw [sigmoid, div_le_one (by linarith)]
  linarith

theorem evalG_conv_block_sigmoid (env : Graph → ℕ → ℕ → ℕ → ℝ) (x : Graph) (f : ℕ)
    (b : String) (i : Option ℕ) (p o : Bool) (i1 j1 k1 : ℕ) :
    0 ≤ evalG env (conv_block x f b i p o true) i1 j1 k1 ∧
    evalG env (conv_block x f b i p o true) i1 j1 k1 ≤ 1 := by
  have e : evalG env (conv_block x f b i p o true) i1 j1 k1
      = sigmoid (evalG env (Graph.batchNorm (make_name b "bn" i)
          (Graph.conv2d f (if o then 1 else 3) (if p then 2 else 1)
            (make_name b "conv" i) x)) i1 j1 k1) := rfl
  rw [e]
  exact ⟨sigmoid_nonneg _, sigmoid_le_one _⟩

/-- C5: for every configuration, the generator maps its input vector (of
dimension `vector_dim`) to an output of shape `(2 ^ R, 2 ^ R, c)`, and
under every assignment of values to the weighted layers each element of
the output lies in `[0, 1]`, the final block using a sigmoid activation. -/
theorem generator_shape_and_range (V R L c : ℕ) :
    shapeOf (generator V R L c) = some [2 ^ R, 2 ^ R, c] ∧
    ∀ env i j k, 0 ≤ evalG env (generator V R L c) i j k ∧
      evalG env (generator V R L c) i j k ≤ 1 := by
  constructor
  · have h0 : shapeOf (Graph.reshape [1, 1, V] (Graph.input [V])) = some [1, 1, V] := by
      simp [shapeOf]
    have h1 := shapeOf_conv_block (Graph.reshape [1, 1, V] (Graph.input [V]))
      (L * 2 ^ R) "stem" none false true false 1 1 V h0
    rw [if_neg (by simp), outDim_one] at h1
    obtain ⟨ch2, h2⟩ := shapeOf_generatorLoop R _ (((L * 2 ^ R : ℕ) : ℚ) / 2) 0 1 1
      (L * 2 ^ R) h1
    rw [one_mul] at h2
    have h3 := shapeOf_conv_block _ c "prediction_conv" none false false true
      (2 ^ R) (2 ^ R) ch2 h2
    rw [if_neg (by simp), outDim_one] at h3
    exact h3
  · intro env i j k
    exact evalG_conv_block_sigmoid env _ c "prediction_conv" none false false i j k

theorem shapeOf_discriminatorLoop : ∀ (n : ℕ) (x : Graph) (f r k ch : ℕ),
    shapeOf x = some [2 ^ k, 2 ^ k, ch] → n ≤ k →
    ∃ ch2, shapeOf (discriminatorLoop x f r n)
      = some [2 ^ (k - n), 2 ^ (k - n), ch2] := by
  intro n
  induction n with
  | zero => intro x f r k ch hx _; exact ⟨ch, by simpa using hx⟩
  | succ n ih =>
    intro x f r k ch hx hnk
    have hk1 : 1 ≤ k := by omega
    have hpre := shapeOf_conv_block x f "conv_block" (some (r + 1)) true false false
      (2 ^ k) (2 ^ k) ch hx
    rw [if_pos rfl, outDim_two_pow hk1] at hpre
    have hy := shapeOf_conv_block (conv_block x f "conv_block" (some (r + 1)) true false false)
      f "conv_1by1" (some (r + 1)) false true false (2 ^ (k - 1)) (2 ^ (k - 1)) f hpre
    rw [if_neg (by simp), outDim_one] at hy
    have hadd : shapeOf (Graph.add ("add_" ++ pyStr (r + 1))
        (conv_block x f "conv_block" (some (r + 1)) true false false)
        (conv_block (conv_block x f "conv_block" (some (r + 1)) true false false)
          f "conv_1by1" (some (r + 1)) false true false))
        = some [2 ^ (k - 1), 2 ^ (k - 1), f] :=
      shapeOf_add _ _ _ _ hpre hy
    obtain ⟨ch2, h2⟩ := ih _ (f * 2) (r + 1) (k - 1) f hadd (by omega)
    refine ⟨ch2, ?_⟩
    have e : k - 1 - n = k - (n + 1) := by omega
    rw [e] at h2
    exact h2

/-- C6: for every configuration, the discriminator maps its input image of
shape `(2 ^ R, 2 ^ R, c)` to an output vector of length `vector_dim + 1`,
and its output node is the final dense layer itself (no activation layer is
applied after it). -/
theorem discriminator_shape_and_head (V R F c : ℕ) :
    shapeOf (discriminator V R F c) = some [V + 1] ∧
    ∃ g, discriminator V R F c
      = Graph.dense (V + 1) "prediction" (Graph.globalAveragePooling2D "prediction_GAP" g) := by
  constructor
  · have h0 : shapeOf (Graph.input [2 ^ R, 2 ^ R, c]) = some [2 ^ R, 2 ^ R, c] := rfl
    have h1 := shapeOf_conv_block (Graph.input [2 ^ R, 2 ^ R, c]) (F * 2) "stem" none
      false false false (2 ^ R) (2 ^ R) c h0
    rw [if_neg (by simp), outDim_one] at h1
    obtain ⟨ch2, h2⟩ := shapeOf_discriminatorLoop R _ (F * 2) 0 R (F * 2) h1 le_rfl
    rw [Nat.sub_self] at h2
    show shapeOf (Graph.dense (V + 1) "prediction" (Graph.globalAveragePooling2D
      "prediction_GAP" (discriminatorLoop (conv_block (Graph.input [2 ^ R, 2 ^ R, c])
        (F * 2) "stem" none false false false) (F * 2) 0 R))) = some [V + 1]
    simp only [shapeOf, h2]
  · exact ⟨_, rfl⟩
